import Mathlib

/-!
Verification development for `src/skills/epub-translator/scripts/epub_utils.py`.

Modelling conventions (shallow embedding):

* Python `str` values are `Str := List Char`; `chars` builds one from a literal.
* Filesystem paths are component lists (`Path := List Str`).  The filesystem is
  an association list from paths to file data; a well-formed filesystem has
  pairwise distinct paths (`FSWf`).  Directories are implicit: a directory
  exists exactly when some file lives under it, which matches the fact that the
  script only ever reads and writes regular files.  `pathlib`'s `/` operator
  splits its right operand on forward slashes, drops empty components, and
  restarts from the root when the right operand is absolute; `joinH` mirrors
  this.  `..` components are kept literally (the script never produces them).
* XML documents are modelled by the results of the exact `ElementTree` queries
  the script performs: a `ContainerDoc` records the first
  `container:rootfile` descendant (element presence, then `full-path`
  attribute presence), a `PackageDoc` records the first `opf:metadata`
  descendant (its first `dc:language` / `dc:title` descendants: element
  presence, then text, where `ElementTree` text is `None` or a string) and the
  first `opf:manifest` descendant (its direct `opf:item` children in document
  order).  `ET.parse` drops comments and normalises nothing else we track, and
  `tree.write(..., encoding='utf-8', xml_declaration=True)` emits one fixed
  canonical byte serialization of the tree; an on-disk XML file is therefore a
  tree together with a serialization variant index (`XFile.variant`), where
  variant `0` stands for the serializer's canonical output and other indices
  stand for the other byte strings parsing to the same tree (declaration
  style, whitespace, comments, ...).  Equality of `FData` models byte equality
  of file contents; `FData.bytes` covers files that are not well-formed XML.
* An archive (zip) is a list of entries: name (component list), data,
  compression method.  Directory entries are not modelled; the script never
  writes any and they carry no file data.
-/

set_option autoImplicit false

namespace EpubUtils

/-- Python strings as character lists. -/
abbrev Str : Type := List Char

/-- Build a `Str` from a string literal. -/
def chars (s : String) : Str := s.toList

/-- Filesystem paths as component lists. -/
abbrev Path : Type := List Str

/-- `strHasPre pre s` holds when `pre` is a leading block of `s`
(used to model Python's substring test). -/
def strHasPre : Str → Str → Bool
  | [], _ => true
  | _ :: _, [] => false
  | a :: as, b :: bs => if a = b then strHasPre as bs else false

/-- Python's `sub in s` substring test. -/
def strIn : Str → Str → Bool
  | sub, [] => decide (sub = [])
  | sub, c :: cs => strHasPre sub (c :: cs) || strIn sub cs

/-- Split on `'/'` dropping empty components, as `pathlib` does when it
parses a path string. -/
def splitSlash (s : Str) : Path :=
  (s.splitOn '/').filter (fun c => !c.isEmpty)

/-- `dir / s` of `pathlib`: if `s` is absolute it replaces `dir`,
otherwise its components are appended to `dir`. -/
def joinH (dir : Path) (s : Str) : Path :=
  match s with
  | '/' :: _ => splitSlash s
  | _ => dir ++ splitSlash s

/-- `hasLead dir p`: `dir` is a (possibly equal) leading segment of `p`. -/
def hasLead : Path → Path → Bool
  | [], _ => true
  | _ :: _, [] => false
  | d :: ds, c :: cs => if d = c then hasLead ds cs else false

/-- `underDir dir p`: `p` is strictly below the directory `dir`. -/
def underDir : Path → Path → Bool
  | [], [] => false
  | [], _ :: _ => true
  | _ :: _, [] => false
  | d :: ds, c :: cs => if d = c then underDir ds cs else false

/-- Path of `p` relative to `dir` (meaningful when `underDir dir p`);
models `file_path.relative_to(source_path)`. -/
def relIn (dir p : Path) : Path := p.drop dir.length

/-- Final path component; models the bare file name that `os.walk` yields. -/
def lastName (p : Path) : Str := p.getLastD []

/-- First `dc:language` descendant of the `metadata` element (`lang`) and
first `dc:title` descendant (`title`): outer `Option` is element presence,
inner `Option` is the `ElementTree` `.text` value (`none` for a `None`
text). -/
structure MetadataBlock where
  lang : Option (Option Str)
  title : Option (Option Str)
  deriving DecidableEq

/-- One `opf:item` child of the `manifest` element; each field is the
corresponding XML attribute, `none` when absent (the script reads them with
`item.get(attr, "")`, except `id` which defaults to `""` as well). -/
structure ManifestItem where
  id : Option Str
  href : Option Str
  mediaType : Option Str
  deriving DecidableEq

/-- A package document as seen through the script's queries: first
`opf:metadata` descendant and first `opf:manifest` descendant (with its
direct `opf:item` children in document order). -/
structure PackageDoc where
  metadata : Option MetadataBlock
  manifest : Option (List ManifestItem)
  deriving DecidableEq

/-- A container descriptor as seen through the script's queries: the first
`container:rootfile` descendant (outer `Option`), and its `full-path`
attribute (inner `Option`). -/
structure ContainerDoc where
  rootfile : Option (Option Str)
  deriving DecidableEq

/-- A parsed XML tree, as far as the script inspects one. -/
inductive XDoc where
  | container (c : ContainerDoc)
  | package (p : PackageDoc)
  deriving DecidableEq

/-- An XML file on disk: its parsed tree plus a serialization variant.
Variant `0` is the canonical byte output of
`tree.write(path, encoding='utf-8', xml_declaration=True)`; other variants
index the other byte strings that parse to the same tree. -/
structure XFile where
  doc : XDoc
  variant : Nat
  deriving DecidableEq

/-- Contents of a file: raw bytes, or a well-formed XML document. -/
inductive FData where
  | bytes (bs : List Nat)
  | xml (f : XFile)
  deriving DecidableEq

/-- The filesystem: an association list from paths to file data. -/
abbrev FS : Type := List (Path × FData)

/-- A well-formed filesystem has pairwise distinct paths. -/
abbrev FSWf (fs : FS) : Prop := (fs.map Prod.fst).Nodup

/-- Content of the file at `p`, if any (first matching entry). -/
def getFile : FS → Path → Option FData
  | [], _ => none
  | (q, d) :: fs, p => if q = p then some d else getFile fs p

/-- Remove every entry at path `p`. -/
def delFile : FS → Path → FS
  | [], _ => []
  | (q, d) :: fs, p => if q = p then delFile fs p else (q, d) :: delFile fs p

/-- Create or overwrite the file at `p`. -/
def setFile (fs : FS) (p : Path) (d : FData) : FS :=
  delFile fs p ++ [(p, d)]

/-- `cleanFor fs dir`: no file of `fs` lives at `dir` or below it
(in particular the path `dir` does not exist at all). -/
def cleanFor (fs : FS) (dir : Path) : Bool :=
  fs.all (fun pr => !hasLead dir pr.1)

/-- All files of `fs` strictly below `dir`, in storage order; models the
files visited by `os.walk(dir)` (the walk order is unspecified by the
source, we use storage order). -/
def walkFiles (fs : FS) (dir : Path) : FS :=
  fs.filter (fun pr => underDir dir pr.1)

/-- Compression method of a zip entry. -/
inductive CompMethod where
  | stored
  | deflated
  deriving DecidableEq

/-- One zip entry: name (forward-slash components), contents, method. -/
structure ZEntry where
  name : Path
  data : FData
  method : CompMethod
  deriving DecidableEq

/-- A zip archive: its entries in order. -/
abbrev Archive : Type := List ZEntry

/-- Data of the last entry of `A` named `q`, if any: the file such a zip
leaves at `q` after `extractall` (later entries overwrite earlier ones). -/
def archLookup : Archive → Path → Option FData
  | [], _ => none
  | e :: A, q =>
      match archLookup A q with
      | some d => some d
      | none => if e.name = q then some e.data else none

/-- `zf.extractall(output_dir)`: write every entry of `A` below `out`,
in order, overwriting on collision. -/
def writeAll (fs : FS) (out : Path) (A : Archive) : FS :=
  A.foldl (fun acc e => setFile acc (out ++ e.name) e.data) fs

/-- Exceptions the modelled functions raise. -/
inductive EErr where
  | fileNotFound
  | valueErr
  | typeErr
  | parseErr
  deriving DecidableEq

/-- Errors of the packer (`zipfile.ZipFile(output_path, 'w')` raises an
`OSError` when the output path is not writable). -/
inductive PErr where
  | ioErr
  deriving DecidableEq

/-- `FormatError` of the specification's error taxonomy (section 7): the
container descriptor is missing, or no rootfile reference is found.  The
source raises `FileNotFoundError` for the first and `ValueError` for the
second; the spec groups both under `FormatError`. -/
def isFormatErr : EErr → Bool
  | .fileNotFound => true
  | .valueErr => true
  | _ => false

/-- `Bool` test for a successful `Except` result. -/
def exOk {ε α : Type} : Except ε α → Bool
  | .ok _ => true
  | .error _ => false

/-- First `container:rootfile` descendant of the document root, as the
`root.find(".//container:rootfile")` query sees it. -/
def findRootfile : XDoc → Option (Option Str)
  | .container c => c.rootfile
  | .package _ => none

/-- First `opf:metadata` descendant, as `root.find(".//opf:metadata")`
sees it. -/
def findMetadata : XDoc → Option MetadataBlock
  | .package p => p.metadata
  | .container _ => none

/-- First `opf:manifest` descendant with its direct `opf:item` children,
as `root.find(".//opf:manifest")` and `manifest.findall("opf:item")`
see it. -/
def findManifest : XDoc → Option (List ManifestItem)
  | .package p => p.manifest
  | .container _ => none

/-- Replace the metadata block of a document (write-back of the mutated
`metadata` element; a container document has none and is unchanged). -/
def setMetadata : XDoc → MetadataBlock → XDoc
  | .package p, md => .package { p with metadata := some md }
  | .container c, _ => .container c

/-- The record `extract_epub` returns. -/
structure ExtractInfo where
  extract_dir : Path
  opf_path : Str
  opf_full_path : Path
  deriving DecidableEq

/-- `extract_epub(epub_path, output_dir)` (source lines 35-65): expand the
archive into `output_dir` (over the ambient filesystem `fs`; `mkdir` is
implicit since directories are), then read
`output_dir / "META-INF" / "container.xml"`: `FileNotFoundError` if absent,
`ParseError` if not well-formed XML; find the first `container:rootfile`
descendant: `ValueError` ("No rootfile in container.xml") if absent; read
its `full-path` attribute (a missing attribute makes
`output_path / opf_path` a `TypeError` since `opf_path` is `None`); on
success return the info record and the updated filesystem. -/
def extract_epub (A : Archive) (fs : FS) (output_dir : Path) :
    Except EErr (ExtractInfo × FS) :=
  let fs1 := writeAll fs output_dir A
  match getFile fs1 (output_dir ++ [chars "META-INF", chars "container.xml"]) with
  | none => .error .fileNotFound
  | some (.bytes _) => .error .parseErr
  | some (.xml f) =>
      match findRootfile f.doc with
      | none => .error .valueErr
      | some none => .error .typeErr
      | some (some fp) =>
          .ok ({ extract_dir := output_dir, opf_path := fp,
                 opf_full_path := joinH output_dir fp }, fs1)

/-- One element of the list `list_content_files` returns. -/
structure ContentEntry where
  id : Str
  href : Str
  path : Path
  media_type : Str
  deriving DecidableEq

/-- `list_content_files(epub_path)` (source lines 68-103): extract the
archive into a fresh temporary directory (`temp_dir`, empty beforehand),
parse the package document, and collect, per manifest `item` in document
order, the entries whose `media-type` is `application/xhtml+xml` or
`text/html` and whose `href` resolved against the package document's
directory exists on disk.  No `manifest` element yields `[]`. -/
def list_content_files (A : Archive) (temp_dir : Path) :
    Except EErr (List ContentEntry) :=
  match extract_epub A [] temp_dir with
  | .error e => .error e
  | .ok (info, fs) =>
      let opf_full := info.opf_full_path
      let opf_dir := opf_full.dropLast
      match getFile fs opf_full with
      | none => .error .fileNotFound
      | some (.bytes _) => .error .parseErr
      | some (.xml f) =>
          match findManifest f.doc with
          | none => .ok []
          | some items =>
              .ok (items.filterMap (fun it =>
                let media_type := it.mediaType.getD []
                let href := it.href.getD []
                let item_id := it.id.getD []
                if media_type = chars "application/xhtml+xml" ∨
                    media_type = chars "text/html" then
                  let full_path := joinH opf_dir href
                  match getFile fs full_path with
                  | some _ => some { id := item_id, href := href,
                                     path := full_path, media_type := media_type }
                  | none => none
                else none))

/-- `get_content_files(extract_dir, opf_path)` (source lines 106-127): same
filter over the manifest of `extract_dir / opf_path`, returning only the
resolved paths. -/
def get_content_files (fs : FS) (extract_dir : Path) (opf_path : Str) :
    Except EErr (List Path) :=
  let opf_full := joinH extract_dir opf_path
  let opf_dir := opf_full.dropLast
  match getFile fs opf_full with
  | none => .error .fileNotFound
  | some (.bytes _) => .error .parseErr
  | some (.xml f) =>
      match findManifest f.doc with
      | none => .ok []
      | some items =>
          .ok (items.filterMap (fun it =>
            let media_type := it.mediaType.getD []
            let href := it.href.getD []
            if media_type = chars "application/xhtml+xml" ∨
                media_type = chars "text/html" then
              let full_path := joinH opf_dir href
              match getFile fs full_path with
              | some _ => some full_path
              | none => none
            else none))

/-- Source lines 139-149, the body of the `metadata is not None` branch of
`update_metadata`: set the text of the first `dc:language` descendant to
`lang_code` when the element exists; when `title_suffix` is non-empty and
the first `dc:title` descendant exists with non-empty text not already
containing `title_suffix`, append a space and the suffix to it. -/
def editMD (lang_code title_suffix : Str) (md : MetadataBlock) : MetadataBlock :=
  let md1 : MetadataBlock :=
    match md.lang with
    | none => md
    | some _ => { md with lang := some (some lang_code) }
  if title_suffix = [] then md1
  else
    match md1.title with
    | some (some t) =>
        if t = [] then md1
        else if strIn title_suffix t then md1
        else { md1 with title := some (some (t ++ ' ' :: title_suffix)) }
    | _ => md1

/-- `update_metadata(extract_dir, opf_path, lang_code, title_suffix)`
(source lines 130-152): parse `extract_dir / opf_path` (the exceptions of
`ET.parse` when the file is missing or malformed), apply `editMD` to the
first `metadata` descendant when present, and unconditionally write the
tree back with `tree.write(opf_full_path, encoding='utf-8',
xml_declaration=True)`, i.e. in the canonical serialization (variant 0). -/
def update_metadata (fs : FS) (extract_dir : Path) (opf_path : Str)
    (lang_code title_suffix : Str) : Except EErr FS :=
  let opf_full := joinH extract_dir opf_path
  match getFile fs opf_full with
  | none => .error .fileNotFound
  | some (.bytes _) => .error .parseErr
  | some (.xml f) =>
      let doc :=
        match findMetadata f.doc with
        | none => f.doc
        | some md => setMetadata f.doc (editMD lang_code title_suffix md)
      .ok (setFile fs opf_full (.xml ⟨doc, 0⟩))

/-- The entry list `pack_epub` writes (source lines 159-173): the top-level
`mimetype` file first, stored, when it exists; then every file of the walk
except those whose bare name is `mimetype`, deflated (the archive default),
under its path relative to the source directory. -/
def packBody (fs : FS) (source_dir : Path) : Archive :=
  (match getFile fs (source_dir ++ [chars "mimetype"]) with
   | some d => [⟨[chars "mimetype"], d, .stored⟩]
   | none => []) ++
  ((walkFiles fs source_dir).filter
      (fun pr => decide (lastName pr.1 ≠ chars "mimetype"))).map
    (fun pr => ⟨relIn source_dir pr.1, pr.2, .deflated⟩)

/-- `pack_epub(source_dir, output_path)` (source lines 155-175): opening the
output for writing raises an `OSError` when the path is not writable
(`output_writable` models that); otherwise the archive written is
`packBody`.  `os.walk` on a missing directory silently yields nothing. -/
def pack_epub (output_writable : Bool) (fs : FS) (source_dir : Path) :
    Except PErr Archive :=
  if output_writable then .ok (packBody fs source_dir) else .error .ioErr

/-- The language reading of a document:
first-`metadata`, then its `lang` field. -/
def docLang (doc : XDoc) : Option (Option Str) :=
  match findMetadata doc with
  | none => none
  | some md => md.lang

/-- The title text of a document, when the `title` element exists with a
string text. -/
def docTitleText (doc : XDoc) : Option Str :=
  match findMetadata doc with
  | none => none
  | some md =>
      match md.title with
      | some (some t) => some t
      | _ => none

/-- The title text of the package document stored at `p`. -/
def titleText (fs : FS) (p : Path) : Option Str :=
  match getFile fs p with
  | some (.xml f) => docTitleText f.doc
  | _ => none

/-! Lemmas about the filesystem model. -/

theorem getFile_append (l r : FS) (p : Path) :
    getFile (l ++ r) p =
      match getFile l p with
      | some d => some d
      | none => getFile r p := by
  induction l with
  | nil => rfl
  | cons e l ih =>
      obtain ⟨q, d⟩ := e
      by_cases h : q = p <;> simp [getFile, h, ih]

theorem getFile_delFile (fs : FS) (p q : Path) :
    getFile (delFile fs p) q = if q = p then none else getFile fs q := by
  induction fs with
  | nil => simp [delFile, getFile]
  | cons e fs ih =>
      obtain ⟨r, d⟩ := e
      simp only [delFile, getFile]
      by_cases hrp : r = p <;> by_cases hrq : r = q <;>
        by_cases hqp : q = p <;> simp_all [getFile, ih]

theorem getFile_setFile (fs : FS) (p : Path) (d : FData) (q : Path) :
    getFile (setFile fs p d) q = if q = p then some d else getFile fs q := by
  unfold setFile
  rw [getFile_append]
  by_cases h : q = p
  · simp [getFile_delFile, getFile, h]
  · have hpq : ¬p = q := fun hh => h hh.symm
    rw [getFile_delFile]
    cases hg : getFile fs q <;> simp [h, hpq, getFile, hg]

theorem getFile_eq_none_iff (fs : FS) (p : Path) :
    getFile fs p = none ↔ ∀ d, (p, d) ∉ fs := by
  induction fs with
  | nil => simp [getFile]
  | cons e fs ih =>
      obtain ⟨q, d⟩ := e
      by_cases h : q = p
      · subst h
        simp only [getFile, if_pos rfl]
        constructor
        · intro hx
          exact absurd hx (by simp)
        · intro hall
          exact ((hall d) (List.mem_cons_self _ _)).elim
      · simp only [getFile, if_neg h, ih]
        constructor
        · intro hall d'
          simp only [List.mem_cons]
          rintro (hh | hh)
          · exact h (congrArg Prod.fst hh).symm
          · exact hall d' hh
        · intro hall d' hh
          exact hall d' (List.mem_cons_of_mem _ hh)

theorem getFile_of_mem_nodup {fs : FS} {p : Path} {d : FData}
    (hm : (p, d) ∈ fs) (hw : FSWf fs) : getFile fs p = some d := by
  induction fs with
  | nil => simp at hm
  | cons e fs ih =>
      obtain ⟨q, d'⟩ := e
      rcases List.mem_cons.mp hm with hh | hh
      · obtain ⟨h1, h2⟩ := Prod.mk.injEq .. ▸ hh
        simp [getFile, h1.symm, h2]
      · have hq : q ∉ fs.map Prod.fst := by
          have := hw
          simp only [FSWf, List.map_cons, List.nodup_cons] at this
          exact this.1
        have hne : q ≠ p := by
          intro h
          subst h
          exact hq (List.mem_map.mpr ⟨(q, d), hh, rfl⟩)
        have hw' : FSWf fs := by
          simp only [FSWf, List.map_cons, List.nodup_cons] at hw
          exact hw.2
        simp [getFile, hne, ih hh hw']

theorem delFile_eq_self {fs : FS} {p : Path} (h : getFile fs p = none) :
    delFile fs p = fs := by
  induction fs with
  | nil => rfl
  | cons e fs ih =>
      obtain ⟨q, d⟩ := e
      by_cases hq : q = p
      · subst hq; simp [getFile] at h
      · simp only [getFile, if_neg hq] at h
        simp [delFile, hq, ih h]

/-! Lemmas about leading path segments. -/

theorem hasLead_append (out q : Path) : hasLead out (out ++ q) = true := by
  induction out with
  | nil => rfl
  | cons c out ih => simp [hasLead, ih]

theorem underDir_append {q : Path} (out : Path) (hq : q ≠ []) :
    underDir out (out ++ q) = true := by
  induction out with
  | nil => cases q with
    | nil => exact absurd rfl hq
    | cons c cs => rfl
  | cons c out ih => simp [underDir, ih]

theorem underDir_shape {dir p : Path} (h : underDir dir p = true) :
    p = dir ++ relIn dir p ∧ relIn dir p ≠ [] := by
  induction dir generalizing p with
  | nil =>
      cases p with
      | nil => simp [underDir] at h
      | cons c cs => exact ⟨rfl, by simp [relIn]⟩
  | cons d ds ih =>
      cases p with
      | nil => simp [underDir] at h
      | cons c cs =>
          simp only [underDir] at h
          by_cases hdc : d = c
          · rw [if_pos hdc] at h
            obtain ⟨h1, h2⟩ := ih h
            subst hdc
            refine ⟨?_, h2⟩
            show d :: cs = d :: (ds ++ relIn ds cs)
            rw [← h1]
          · simp [hdc] at h

theorem relIn_append (out q : Path) : relIn out (out ++ q) = q := by
  induction out with
  | nil => rfl
  | cons c out ih => exact ih

theorem cleanFor_getFile {fs : FS} {dir : Path} (h : cleanFor fs dir = true)
    (q : Path) : getFile fs (dir ++ q) = none := by
  rw [getFile_eq_none_iff]
  intro d hm
  have h2 := (List.all_eq_true.mp h) _ hm
  simp [hasLead_append] at h2

/-! Lemmas about archive expansion. -/

theorem writeAll_cons (fs : FS) (out : Path) (e : ZEntry) (A : Archive) :
    writeAll fs out (e :: A) =
      writeAll (setFile fs (out ++ e.name) e.data) out A := rfl

theorem getFile_writeAll (A : Archive) (fs : FS) (out q : Path) :
    getFile (writeAll fs out A) (out ++ q) =
      match archLookup A q with
      | some d => some d
      | none => getFile fs (out ++ q) := by
  induction A generalizing fs with
  | nil => rfl
  | cons e A ih =>
      rw [writeAll_cons, ih]
      cases h : archLookup A q with
      | some d => simp [archLookup, h]
      | none =>
          simp only [archLookup, h]
          rw [getFile_setFile]
          by_cases hq : e.name = q
          · subst hq
            simp
          · rw [if_neg hq,
              if_neg (fun hh => hq (List.append_cancel_left hh).symm)]

theorem getFile_writeAll_outside (A : Archive) (fs : FS) (out : Path) {p : Path}
    (hp : hasLead out p = false) :
    getFile (writeAll fs out A) p = getFile fs p := by
  induction A generalizing fs with
  | nil => rfl
  | cons e A ih =>
      rw [writeAll_cons, ih, getFile_setFile, if_neg]
      intro hh
      subst hh
      simp [hasLead_append] at hp

theorem writeAll_eq_append (A : Archive) (fs : FS) (out : Path)
    (hnew : ∀ e ∈ A, getFile fs (out ++ e.name) = none)
    (hnd : (A.map ZEntry.name).Nodup) :
    writeAll fs out A = fs ++ A.map (fun e => (out ++ e.name, e.data)) := by
  induction A generalizing fs with
  | nil => simp [writeAll]
  | cons e A ih =>
      rw [writeAll_cons]
      have h0 : getFile fs (out ++ e.name) = none :=
        hnew e (List.mem_cons_self _ _)
      have h1 : setFile fs (out ++ e.name) e.data =
          fs ++ [(out ++ e.name, e.data)] := by
        unfold setFile
        rw [delFile_eq_self h0]
      have hnd2 : (∀ x ∈ A, ¬x.name = e.name) ∧ (A.map ZEntry.name).Nodup := by
        simpa using hnd
      rw [h1, ih _ ?hnew hnd2.2]
      · simp
      case hnew =>
        intro e' he'
        rw [getFile_append, hnew e' (List.mem_cons_of_mem _ he')]
        simp only [getFile]
        rw [if_neg]
        intro hh
        exact hnd2.1 e' he' (List.append_cancel_left hh).symm

theorem archLookup_mem {A : Archive} {q : Path} {d : FData}
    (h : archLookup A q = some d) : ∃ e, e ∈ A ∧ e.name = q ∧ e.data = d := by
  induction A with
  | nil => simp [archLookup] at h
  | cons e A ih =>
      simp only [archLookup] at h
      cases hA : archLookup A q with
      | some d' =>
          rw [hA] at h
          have hd : d' = d := Option.some.inj h
          subst hd
          obtain ⟨e', he', h1, h2⟩ := ih hA
          exact ⟨e', List.mem_cons_of_mem _ he', h1, h2⟩
      | none =>
          rw [hA] at h
          by_cases hn : e.name = q
          · rw [if_pos hn] at h
            exact ⟨e, List.mem_cons_self _ _, hn, Option.some.inj h⟩
          · rw [if_neg hn] at h
            exact absurd h (by simp)

theorem archLookup_of_mem_nodup {A : Archive} {e : ZEntry}
    (hm : e ∈ A) (hnd : (A.map ZEntry.name).Nodup) :
    archLookup A e.name = some e.data := by
  induction A with
  | nil => simp at hm
  | cons e' A ih =>
      have hnd2 : (∀ x ∈ A, ¬x.name = e'.name) ∧ (A.map ZEntry.name).Nodup := by
        simpa using hnd
      simp only [archLookup]
      rcases List.mem_cons.mp hm with h | h
      · subst h
        cases hA : archLookup A e.name with
        | some d =>
            obtain ⟨e'', he'', h1, _⟩ := archLookup_mem hA
            exact absurd h1 (hnd2.1 e'' he'')
        | none => rw [if_pos rfl]
      · rw [ih h hnd2.2]

/-! Lemmas about the substring test. -/

theorem strHasPre_self (s : Str) : strHasPre s s = true := by
  induction s with
  | nil => rfl
  | cons c cs ih => simp [strHasPre, ih]

theorem strIn_self (s : Str) : strIn s s = true := by
  cases s with
  | nil => rfl
  | cons c cs => simp [strIn, strHasPre_self]

theorem strIn_cons {sub : Str} (c : Char) {s : Str} (h : strIn sub s = true) :
    strIn sub (c :: s) = true := by
  simp [strIn, h]

theorem strIn_append {sub : Str} (l : Str) {r : Str} (h : strIn sub r = true) :
    strIn sub (l ++ r) = true := by
  induction l with
  | nil => exact h
  | cons c cs ih => exact strIn_cons c ih

theorem strIn_space_append (t s : Str) : strIn s (t ++ ' ' :: s) = true :=
  strIn_append t (strIn_cons ' ' (strIn_self s))

/-! Lemmas about final components and `dropLast`. -/

theorem getLastD_irrel {l : Path} (hl : l ≠ []) (d d' : Str) :
    l.getLastD d = l.getLastD d' := by
  cases l with
  | nil => exact absurd rfl hl
  | cons x xs => rw [List.getLastD_cons, List.getLastD_cons]

theorem lastName_append {q : Path} (out : Path) (hq : q ≠ []) :
    lastName (out ++ q) = lastName q := by
  induction out with
  | nil => rfl
  | cons c out ih =>
      have hne : out ++ q ≠ [] := by simp [hq]
      show (c :: (out ++ q)).getLastD [] = lastName q
      rw [List.getLastD_cons, getLastD_irrel hne c []]
      exact ih

theorem dropLast_append {q : Path} (l : Path) (hq : q ≠ []) :
    (l ++ q).dropLast = l ++ q.dropLast := by
  induction l with
  | nil => rfl
  | cons c l ih =>
      cases hx : l ++ q with
      | nil => exact absurd (List.append_eq_nil.mp hx).2 hq
      | cons x xs =>
          rw [List.cons_append, hx]
          show c :: (x :: xs).dropLast = c :: (l ++ q.dropLast)
          rw [← hx, ih]

/-! Lemmas about the metadata edit. -/

/-- The effect of `editMD` on the `lang` field alone. -/
def editLang (lc : Str) : Option (Option Str) → Option (Option Str)
  | none => none
  | some _ => some (some lc)

/-- The effect of `editMD` on the `title` field alone. -/
def editTitle (ts : Str) : Option (Option Str) → Option (Option Str)
  | some (some t) =>
      if ts = [] then some (some t)
      else if t = [] then some (some t)
      else if strIn ts t then some (some t)
      else some (some (t ++ ' ' :: ts))
  | x => x

theorem editMD_mk (lc ts : Str) (lg tl : Option (Option Str)) :
    editMD lc ts ⟨lg, tl⟩ = ⟨editLang lc lg, editTitle ts tl⟩ := by
  cases lg <;> rcases tl with _ | ⟨_ | t⟩ <;>
    simp only [editMD, editLang, editTitle] <;> split_ifs <;> simp_all

theorem editLang_idem (lc : Str) (lg : Option (Option Str)) :
    editLang lc (editLang lc lg) = editLang lc lg := by
  cases lg <;> rfl

theorem editTitle_idem (ts : Str) (tl : Option (Option Str)) :
    editTitle ts (editTitle ts tl) = editTitle ts tl := by
  rcases tl with _ | ⟨_ | t⟩
  · rfl
  · rfl
  · by_cases hts : ts = []
    · simp [editTitle, hts]
    · by_cases ht : t = []
      · simp [editTitle, hts, ht]
      · by_cases hin : strIn ts t
        · simp [editTitle, hts, ht, hin]
        · simp [editTitle, hts, ht, hin, strIn_space_append]

theorem editMD_idem (lc ts : Str) (md : MetadataBlock) :
    editMD lc ts (editMD lc ts md) = editMD lc ts md := by
  obtain ⟨lg, tl⟩ := md
  rw [editMD_mk, editMD_mk]
  simp only [editLang_idem, editTitle_idem]

theorem findMetadata_setMetadata {doc : XDoc} {md0 : MetadataBlock}
    (md : MetadataBlock) (h : findMetadata doc = some md0) :
    findMetadata (setMetadata doc md) = some md := by
  cases doc with
  | container c => simp [findMetadata] at h
  | package p => rfl

theorem docTitleText_setMetadata {doc : XDoc} {md0 : MetadataBlock}
    (md : MetadataBlock) (h : findMetadata doc = some md0) :
    docTitleText (setMetadata doc md) =
      match md.title with
      | some (some t) => some t
      | _ => none := by
  cases doc with
  | container c => simp [findMetadata] at h
  | package p => rfl

theorem docLang_setMetadata {doc : XDoc} {md0 : MetadataBlock}
    (md : MetadataBlock) (h : findMetadata doc = some md0) :
    docLang (setMetadata doc md) = md.lang := by
  cases doc with
  | container c => simp [findMetadata] at h
  | package p => rfl

theorem editMD_lang (lc ts : Str) (md : MetadataBlock) :
    (editMD lc ts md).lang = editLang lc md.lang := by
  obtain ⟨lg, tl⟩ := md
  rw [editMD_mk]

theorem editMD_title (lc ts : Str) (md : MetadataBlock) :
    (editMD lc ts md).title = editTitle ts md.title := by
  obtain ⟨lg, tl⟩ := md
  rw [editMD_mk]

/-! Further path and walk lemmas. -/

theorem hasLead_of_underDir {dir p : Path} (h : underDir dir p = true) :
    hasLead dir p = true := by
  induction dir generalizing p with
  | nil => rfl
  | cons c ds ih =>
      cases p with
      | nil => simp [underDir] at h
      | cons x xs =>
          simp only [underDir] at h
          simp only [hasLead]
          by_cases hdc : c = x
          · rw [if_pos hdc] at h ⊢
            exact ih h
          · rw [if_neg hdc] at h
            exact absurd h (by simp)

theorem walkFiles_eq_nil {fs : FS} {dir : Path} (h : cleanFor fs dir = true) :
    walkFiles fs dir = [] := by
  unfold walkFiles
  rw [List.filter_eq_nil_iff]
  intro pr hm
  have h2 := (List.all_eq_true.mp h) _ hm
  simp only [Bool.not_eq_true'] at h2
  intro hu
  rw [hasLead_of_underDir hu] at h2
  exact absurd h2 (by simp)

theorem lastName_relIn {src p : Path} (h : underDir src p = true) :
    lastName (relIn src p) = lastName p := by
  obtain ⟨h1, h2⟩ := underDir_shape h
  conv_rhs => rw [h1]
  rw [lastName_append _ h2]

theorem archLookup_nil {A : Archive} (h : ∀ e ∈ A, e.name ≠ []) :
    archLookup A [] = none := by
  induction A with
  | nil => rfl
  | cons e A ih =>
      simp only [archLookup,
        ih (fun e' he' => h e' (List.mem_cons_of_mem _ he'))]
      rw [if_neg (h e (List.mem_cons_self _ _))]

theorem joinH_rel {s : Str} (dir : Path) (h : s.head? ≠ some '/') :
    joinH dir s = dir ++ splitSlash s := by
  unfold joinH
  split
  · simp at h
  · rfl

/-- Inversion of a successful extraction: the returned filesystem is the
expanded one, the directory is echoed back, the absolute package-document
path is the relative one resolved against it, and the container descriptor
was found with a rootfile reference carrying the returned path. -/
theorem extract_ok_inv {A : Archive} {fs0 : FS} {out : Path}
    {inf : ExtractInfo} {fs1 : FS}
    (hx : extract_epub A fs0 out = .ok (inf, fs1)) :
    fs1 = writeAll fs0 out A ∧ inf.extract_dir = out ∧
      inf.opf_full_path = joinH out inf.opf_path ∧
      ∃ f, getFile (writeAll fs0 out A)
          (out ++ [chars "META-INF", chars "container.xml"]) = some (.xml f) ∧
        findRootfile f.doc = some (some inf.opf_path) := by
  simp only [extract_epub] at hx
  split at hx
  · cases hx
  · cases hx
  · next f hg =>
      split at hx
      · cases hx
      · cases hx
      · next fp hr =>
          have h' := Except.ok.inj hx
          injection h' with hinf hfs2
          refine ⟨hfs2.symm, ?_, ?_, f, hg, ?_⟩
          · rw [← hinf]
          · rw [← hinf]
          · rw [← hinf]
            exact hr

/-- Generic normal form: a `filterMap` whose body is an
if-then-some-else-none is a `filter` followed by a `map`. -/
theorem filterMap_eq_filter_map {α β : Type} (p : α → Bool) (g : α → β)
    (f : α → Option β) (hpf : ∀ a, f a = if p a then some (g a) else none)
    (l : List α) :
    l.filterMap f = (l.filter p).map g := by
  induction l with
  | nil => rfl
  | cons a l ih =>
      rw [List.filterMap_cons, List.filter_cons, hpf a]
      by_cases hp : p a <;> simp [hp, ih]

/-- Case analysis on membership in a packed archive: an entry is either the
leading stored top-level `mimetype` entry, or comes from a walked file whose
bare name is not `mimetype`. -/
theorem mem_packBody {fs : FS} {src : Path} {e : ZEntry}
    (h : e ∈ packBody fs src) :
    (∃ d, getFile fs (src ++ [chars "mimetype"]) = some d ∧
        e = ⟨[chars "mimetype"], d, .stored⟩ ∧
        (packBody fs src).head? = some e) ∨
    (∃ p d, (p, d) ∈ fs ∧ underDir src p = true ∧
        lastName p ≠ chars "mimetype" ∧ e = ⟨relIn src p, d, .deflated⟩) := by
  unfold packBody at h
  rcases List.mem_append.mp h with hm | hm
  · left
    cases hg : getFile fs (src ++ [chars "mimetype"]) with
    | none =>
        rw [hg] at hm
        simp at hm
    | some d =>
        rw [hg] at hm
        have he : e = ⟨[chars "mimetype"], d, .stored⟩ := by simpa using hm
        refine ⟨d, rfl, he, ?_⟩
        unfold packBody
        rw [hg, he]
        rfl
  · right
    obtain ⟨pr, hpr, he⟩ := List.mem_map.mp hm
    have h1 := List.mem_filter.mp hpr
    have h2 := List.mem_filter.mp h1.1
    exact ⟨pr.1, pr.2, h2.1, h2.2, of_decide_eq_true h1.2, he.symm⟩

/-- C6: the Archive Extractor fails with an error of the spec's
`FormatError` class when `META-INF/container.xml` is absent from the
expanded tree, and likewise when it holds no rootfile reference; when the
rootfile reference carries a `full-path`, extraction succeeds and returns
the target directory, the package-document path as written in the
descriptor, and that path resolved against the target directory. -/
theorem C6_extract_error_contract (A : Archive) (fs : FS) (out : Path) :
    (getFile (writeAll fs out A)
        (out ++ [chars "META-INF", chars "container.xml"]) = none →
      extract_epub A fs out = .error .fileNotFound ∧
        isFormatErr .fileNotFound = true) ∧
    (∀ f, getFile (writeAll fs out A)
        (out ++ [chars "META-INF", chars "container.xml"]) = some (.xml f) →
      (findRootfile f.doc = none →
        extract_epub A fs out = .error .valueErr ∧
          isFormatErr .valueErr = true) ∧
      (∀ fp, findRootfile f.doc = some (some fp) →
        extract_epub A fs out =
          .ok ({ extract_dir := out, opf_path := fp,
                 opf_full_path := joinH out fp }, writeAll fs out A))) := by
  refine ⟨fun h => ⟨by simp [extract_epub, h], rfl⟩, fun f hf => ⟨?_, ?_⟩⟩
  · intro hr
    exact ⟨by simp [extract_epub, hf, hr], rfl⟩
  · intro fp hr
    simp [extract_epub, hf, hr]

/-- Witness for C6 at a concrete archive holding a container descriptor
whose rootfile points at `OEBPS/content.opf`. -/
def wA6 : Archive :=
  [⟨[chars "mimetype"], .bytes [97], .stored⟩,
   ⟨[chars "META-INF", chars "container.xml"],
     .xml ⟨.container ⟨some (some (chars "OEBPS/content.opf"))⟩, 1⟩, .deflated⟩]

/-- C6 witness: the success branch of the extractor contract evaluated on
`wA6`. -/
theorem C6_witness :
    extract_epub wA6 [] [chars "w"] =
      .ok ({ extract_dir := [chars "w"],
             opf_path := chars "OEBPS/content.opf",
             opf_full_path := joinH [chars "w"] (chars "OEBPS/content.opf") },
           writeAll [] [chars "w"] wA6) :=
  (((C6_extract_error_contract wA6 [] [chars "w"]).2
      ⟨.container ⟨some (some (chars "OEBPS/content.opf"))⟩, 1⟩
      (by decide)).2) (chars "OEBPS/content.opf") (by decide)

/-- C7 counterexample: the source-directory path `book` does not exist on
the (empty) filesystem, yet the packer run with a writable output succeeds
and produces an archive with no entries instead of failing with an
`IOError`. -/
theorem C7_counterexample :
    cleanFor ([] : FS) [chars "book"] = true ∧
      pack_epub true [] [chars "book"] = .ok [] := ⟨rfl, rfl⟩

/-- C7 amended: the packer does not detect a missing source directory — when
nothing exists at or below the source path it succeeds (given a writable
output) and produces an archive with no entries; an `IOError` arises only
from an unwritable output path. -/
theorem C7_pack_missing_source (fs : FS) (src : Path)
    (h : cleanFor fs src = true) :
    pack_epub true fs src = .ok [] ∧
      pack_epub false fs src = .error .ioErr := by
  constructor
  · have h1 : getFile fs (src ++ [chars "mimetype"]) = none :=
      cleanFor_getFile h _
    have h2 : walkFiles fs src = [] := walkFiles_eq_nil h
    simp [pack_epub, packBody, h1, h2]
  · rfl

/-- C7 witness: the amended statement evaluated on the empty filesystem. -/
theorem C7_witness :
    pack_epub true [] [chars "book2"] = .ok [] ∧
      pack_epub false [] [chars "book2"] = .error .ioErr :=
  C7_pack_missing_source [] [chars "book2"] (by decide)

/-- C10: in a packed archive, any entry whose bare file name is `mimetype`
is the top-level one and sits first; a file named `mimetype` nested below
the source directory is omitted from the archive altogether. -/
theorem C10_nested_mimetype_omitted (fs : FS) (src : Path) (es : Archive)
    (hp : pack_epub true fs src = .ok es) :
    (∀ e ∈ es, lastName e.name = chars "mimetype" →
        e.name = [chars "mimetype"] ∧ es.head? = some e) ∧
    (∀ p d, (p, d) ∈ fs → underDir src p = true →
        lastName p = chars "mimetype" → p ≠ src ++ [chars "mimetype"] →
        relIn src p ∉ es.map ZEntry.name) := by
  have hes : es = packBody fs src := by
    simpa [pack_epub] using hp.symm
  subst hes
  constructor
  · intro e he hl
    rcases mem_packBody he with ⟨d, hg, he1, hh⟩ | ⟨p, d, _, hu, hln, he1⟩
    · exact ⟨by rw [he1], hh⟩
    · rw [he1] at hl
      rw [lastName_relIn hu] at hl
      exact absurd hl hln
  · intro p d hpf hu hl hne hmem
    obtain ⟨e, he, hn⟩ := List.mem_map.mp hmem
    rcases mem_packBody he with ⟨d', _, he1, _⟩ | ⟨p', d', _, hu', hln', he1⟩
    · rw [he1] at hn
      have hp1 := (underDir_shape hu).1
      rw [← hn] at hp1
      exact hne hp1
    · rw [he1] at hn
      have hn' : relIn src p' = relIn src p := hn
      have h3 : lastName (relIn src p') = lastName (relIn src p) := by rw [hn']
      rw [lastName_relIn hu', lastName_relIn hu, hl] at h3
      exact hln' h3

/-- C10 witness: a filesystem with a top-level and a nested `mimetype`. -/
def wFS10 : FS :=
  [([chars "b", chars "mimetype"], .bytes [1]),
   ([chars "b", chars "OEBPS", chars "mimetype"], .bytes [2]),
   ([chars "b", chars "OEBPS", chars "x.xhtml"], .bytes [3])]

/-- C10 witness: the nested `mimetype` of `wFS10` is absent from the packed
entry names. -/
theorem C10_witness :
    relIn [chars "b"] [chars "b", chars "OEBPS", chars "mimetype"] ∉
      (packBody wFS10 [chars "b"]).map ZEntry.name :=
  (C10_nested_mimetype_omitted wFS10 [chars "b"] _ rfl).2
    [chars "b", chars "OEBPS", chars "mimetype"] (.bytes [2])
    (by decide) (by decide) (by decide) (by decide)

/-- C2 counterexample filesystem: a source tree with a top-level
`mimetype` and a nested file also named `mimetype`. -/
def cFS2 : FS :=
  [([chars "b3", chars "mimetype"], .bytes [20]),
   ([chars "b3", chars "OEBPS", chars "mimetype"], .bytes [21])]

/-- C2 counterexample: `OEBPS/mimetype` is a file under the source
directory other than the top-level `mimetype`, yet the packed archive
contains no entry under its forward-slash relative path: the walk skips
every file whose bare name is `mimetype`, so the packer does not write
"every other file". -/
theorem C2_counterexample :
    ([chars "b3", chars "OEBPS", chars "mimetype"], FData.bytes [21]) ∈ cFS2 ∧
    pack_epub true cFS2 [chars "b3"] = .ok (packBody cFS2 [chars "b3"]) ∧
    [chars "OEBPS", chars "mimetype"] ∉
      (packBody cFS2 [chars "b3"]).map ZEntry.name :=
  ⟨by decide, rfl, by decide⟩

/-- C2 amended: the packer writes a top-level `mimetype` file (when
present) as the first archive entry with no compression; every entry is
deflated (except that first one) and named by the forward-slash relative
path of an existing source file with that content; at most one entry named
`mimetype` ever appears; and, completeness, every file under the source
directory whose bare name is not `mimetype` is written, deflated, under
its forward-slash relative path with its content (files whose bare name is
`mimetype`, other than the top-level one, are skipped by the walk and not
written). -/
theorem C2_pack_layout (fs : FS) (src : Path) (es : Archive)
    (hwf : FSWf fs) (hp : pack_epub true fs src = .ok es) :
    (∀ d, getFile fs (src ++ [chars "mimetype"]) = some d →
        es.head? = some ⟨[chars "mimetype"], d, .stored⟩) ∧
    (∀ e ∈ es, e.method = .deflated ∨
        (e.name = [chars "mimetype"] ∧ e.method = .stored ∧
          es.head? = some e)) ∧
    (∀ e ∈ es, getFile fs (src ++ e.name) = some e.data) ∧
    List.countP (fun e => decide (e.name = [chars "mimetype"])) es ≤ 1 ∧
    (∀ p d, (p, d) ∈ fs → underDir src p = true →
        lastName p ≠ chars "mimetype" →
        (⟨relIn src p, d, .deflated⟩ : ZEntry) ∈ es) := by
  have hes : es = packBody fs src := by
    simpa [pack_epub] using hp.symm
  subst hes
  refine ⟨?_, ?_, ?_, ?_, ?_⟩
  · intro d hg
    unfold packBody
    rw [hg]
    rfl
  · intro e he
    rcases mem_packBody he with ⟨d, hg, he1, hh⟩ | ⟨p, d, hm, hu, hln, he1⟩
    · exact Or.inr ⟨by rw [he1], by rw [he1], hh⟩
    · exact Or.inl (by rw [he1])
  · intro e he
    rcases mem_packBody he with ⟨d, hg, he1, hh⟩ | ⟨p, d, hm, hu, hln, he1⟩
    · rw [he1]
      exact hg
    · rw [he1]
      show getFile fs (src ++ relIn src p) = some d
      rw [← (underDir_shape hu).1]
      exact getFile_of_mem_nodup hm hwf
  · unfold packBody
    rw [List.countP_append]
    have hwalk : ∀ e ∈ ((walkFiles fs src).filter
        (fun pr => decide (lastName pr.1 ≠ chars "mimetype"))).map
        (fun pr => (⟨relIn src pr.1, pr.2, .deflated⟩ : ZEntry)),
        ¬((fun e => decide (e.name = [chars "mimetype"])) e = true) := by
      intro e he hdec
      obtain ⟨pr, hpr, he'⟩ := List.mem_map.mp he
      have h1 := List.mem_filter.mp hpr
      have h2 := List.mem_filter.mp h1.1
      have hln := of_decide_eq_true h1.2
      have hne := of_decide_eq_true hdec
      rw [show e = (⟨relIn src pr.1, pr.2, .deflated⟩ : ZEntry)
        from he'.symm] at hne
      have hne2 : relIn src pr.1 = [chars "mimetype"] := hne
      have h3 : lastName (relIn src pr.1) = chars "mimetype" := by
        rw [hne2]
        decide
      rw [lastName_relIn h2.2] at h3
      exact hln h3
    rw [List.countP_eq_zero.mpr hwalk]
    cases hg : getFile fs (src ++ [chars "mimetype"]) with
    | none => simp
    | some d => simp [List.countP_cons]
  · intro p d hm hu hln
    unfold packBody
    refine List.mem_append.mpr (Or.inr ?_)
    refine List.mem_map.mpr ⟨(p, d), ?_, rfl⟩
    rw [List.mem_filter]
    refine ⟨?_, decide_eq_true hln⟩
    unfold walkFiles
    rw [List.mem_filter]
    exact ⟨hm, hu⟩

/-- C2 witness filesystem: a source tree with a top-level `mimetype` and
one nested content file. -/
def wFS2 : FS :=
  [([chars "b2", chars "mimetype"], .bytes [10]),
   ([chars "b2", chars "OEBPS", chars "a.xhtml"], .bytes [11])]

/-- C2 witness: the packed archive of `wFS2` starts with the stored
`mimetype` entry. -/
theorem C2_witness :
    (packBody wFS2 [chars "b2"]).head? =
      some ⟨[chars "mimetype"], .bytes [10], .stored⟩ :=
  (C2_pack_layout wFS2 [chars "b2"] _ (by decide) rfl).1 (.bytes [10]) (by decide)

/-- C8: when a language code is supplied and the metadata block has a
`language` element, the Metadata Editor overwrites that element's text with
the code; when the element is absent the update succeeds anyway and the
language is simply left absent. -/
theorem C8_language_update (fs : FS) (dir : Path) (opfp lc ts : Str)
    (f : XFile) (md : MetadataBlock)
    (hf : getFile fs (joinH dir opfp) = some (.xml f))
    (hmd : findMetadata f.doc = some md)
    (_hlc : lc ≠ []) :
    exOk (update_metadata fs dir opfp lc ts) = true ∧
    (∀ fs' g, update_metadata fs dir opfp lc ts = .ok fs' →
      getFile fs' (joinH dir opfp) = some (.xml g) →
      (md.lang ≠ none → docLang g.doc = some (some lc)) ∧
      (md.lang = none → docLang g.doc = none)) := by
  have hu : update_metadata fs dir opfp lc ts =
      .ok (setFile fs (joinH dir opfp)
        (.xml ⟨setMetadata f.doc (editMD lc ts md), 0⟩)) := by
    simp [update_metadata, hf, hmd]
  constructor
  · rw [hu]
    rfl
  · intro fs' g hu' hg
    rw [hu] at hu'
    have hfs' : fs' = setFile fs (joinH dir opfp)
        (.xml ⟨setMetadata f.doc (editMD lc ts md), 0⟩) :=
      (Except.ok.inj hu').symm
    subst hfs'
    rw [getFile_setFile, if_pos rfl] at hg
    have hgx : (⟨setMetadata f.doc (editMD lc ts md), 0⟩ : XFile) = g :=
      FData.xml.inj (Option.some.inj hg)
    rw [← hgx]
    show (md.lang ≠ none →
        docLang (setMetadata f.doc (editMD lc ts md)) = some (some lc)) ∧
      (md.lang = none → docLang (setMetadata f.doc (editMD lc ts md)) = none)
    rw [docLang_setMetadata _ hmd, editMD_lang]
    cases hml : md.lang with
    | none => simp [editLang]
    | some x => simp [editLang]

/-- C8 witness filesystem: a package document with language `en` and title
`My Book`. -/
def wFS8 : FS :=
  [([chars "c.opf"],
    .xml ⟨.package ⟨some ⟨some (some (chars "en")),
      some (some (chars "My Book"))⟩, none⟩, 0⟩)]

/-- C8 witness: the editor succeeds on `wFS8` with language `zh-CN`. -/
theorem C8_witness :
    exOk (update_metadata wFS8 [] (chars "c.opf") (chars "zh-CN") []) = true :=
  (C8_language_update wFS8 [] (chars "c.opf") (chars "zh-CN") []
    ⟨.package ⟨some ⟨some (some (chars "en")),
      some (some (chars "My Book"))⟩, none⟩, 0⟩
    ⟨some (some (chars "en")), some (some (chars "My Book"))⟩
    (by decide) rfl (by decide)).1

/-- Inversion of a successful metadata update: the package document was
readable as XML, and the returned filesystem stores the canonical
re-serialization of either the untouched tree (no `metadata` element) or
the edited tree. -/
theorem update_ok_inv {fs : FS} {dir : Path} {opfp lc ts : Str} {fs' : FS}
    (h : update_metadata fs dir opfp lc ts = .ok fs') :
    ∃ f, getFile fs (joinH dir opfp) = some (.xml f) ∧
      ((findMetadata f.doc = none ∧
         fs' = setFile fs (joinH dir opfp) (.xml ⟨f.doc, 0⟩)) ∨
       (∃ md, findMetadata f.doc = some md ∧
         fs' = setFile fs (joinH dir opfp)
           (.xml ⟨setMetadata f.doc (editMD lc ts md), 0⟩))) := by
  simp only [update_metadata] at h
  split at h
  · cases h
  · cases h
  · next f hf =>
      cases hm : findMetadata f.doc with
      | none =>
          rw [hm] at h
          exact ⟨f, hf, Or.inl ⟨hm, (Except.ok.inj h).symm⟩⟩
      | some md =>
          rw [hm] at h
          exact ⟨f, hf, Or.inr ⟨md, hm, (Except.ok.inj h).symm⟩⟩

theorem setMetadata_setMetadata (doc : XDoc) (md md' : MetadataBlock) :
    setMetadata (setMetadata doc md) md' = setMetadata doc md' := by
  cases doc <;> rfl

/-- C3 counterexample filesystem: a package document with no `metadata`
element, stored in a non-canonical serialization (variant 1). -/
def cFS3 : FS := [([chars "c.opf"], .xml ⟨.package ⟨none, none⟩, 1⟩)]

/-- C3 counterexample: the package document of `cFS3` has no `metadata`
element and no language code or title suffix is supplied, yet the editor
rewrites the file in its canonical serialization, so the document on disk
is not byte-for-byte unmodified. -/
theorem C3_counterexample :
    update_metadata cFS3 [] (chars "c.opf") [] [] =
      .ok [([chars "c.opf"], .xml ⟨.package ⟨none, none⟩, 0⟩)] ∧
    getFile [([chars "c.opf"], .xml ⟨.package ⟨none, none⟩, 0⟩)]
        [chars "c.opf"] ≠ getFile cFS3 [chars "c.opf"] :=
  ⟨rfl, by decide⟩

/-- C3 amended: when the `metadata` element is absent (for any language
code and title suffix, in particular empty ones) the Metadata Editor
leaves the parsed element tree unmodified and every other file untouched,
but it unconditionally rewrites the package document in the serializer's
canonical form, so the on-disk bytes are unchanged exactly when the
original file already was in canonical form (variant 0).  (When the CLI
receives no language code it does not invoke the editor at all.) -/
theorem C3_noop_reserializes (fs : FS) (dir : Path) (opfp lc ts : Str)
    (f : XFile)
    (hf : getFile fs (joinH dir opfp) = some (.xml f))
    (hmd : findMetadata f.doc = none) :
    update_metadata fs dir opfp lc ts =
      .ok (setFile fs (joinH dir opfp) (.xml ⟨f.doc, 0⟩)) ∧
    (∀ q, q ≠ joinH dir opfp →
      getFile (setFile fs (joinH dir opfp) (.xml ⟨f.doc, 0⟩)) q =
        getFile fs q) ∧
    (f.variant = 0 →
      ∀ q, getFile (setFile fs (joinH dir opfp) (.xml ⟨f.doc, 0⟩)) q =
        getFile fs q) := by
  obtain ⟨fdoc, fvar⟩ := f
  refine ⟨by simp [update_metadata, hf, hmd], ?_, ?_⟩
  · intro q hq
    rw [getFile_setFile, if_neg hq]
  · intro hv q
    simp only at hv
    subst hv
    rw [getFile_setFile]
    by_cases hq : q = joinH dir opfp
    · rw [if_pos hq, hq, hf]
    · rw [if_neg hq]

/-- C3 witness filesystem: same document as `cFS3` but already stored in
canonical form. -/
def wFS3 : FS := [([chars "e.opf"], .xml ⟨.package ⟨none, none⟩, 0⟩)]

/-- C3 witness: on a canonically serialized metadata-less document the
rewrite leaves the document file unchanged. -/
theorem C3_witness :
    getFile (setFile wFS3 (joinH [] (chars "e.opf"))
        (.xml ⟨XDoc.package ⟨none, none⟩, 0⟩)) [chars "e.opf"] =
      getFile wFS3 [chars "e.opf"] :=
  (C3_noop_reserializes wFS3 [] (chars "e.opf") [] []
    ⟨.package ⟨none, none⟩, 0⟩ (by decide) rfl).2.2 rfl [chars "e.opf"]

/-- C4: applying the Metadata Editor twice with the same title suffix
yields the same title text as applying it once; one application appends a
space and the suffix exactly when the suffix is non-empty, the current
title text is non-empty, and the suffix is not already a substring of
it, and leaves the title untouched otherwise. -/
theorem C4_title_idempotent (fs : FS) (dir : Path) (opfp lc ts : Str)
    (fs1 fs2 : FS)
    (h1 : update_metadata fs dir opfp lc ts = .ok fs1)
    (h2 : update_metadata fs1 dir opfp lc ts = .ok fs2) :
    titleText fs2 (joinH dir opfp) = titleText fs1 (joinH dir opfp) ∧
    (∀ f md t, getFile fs (joinH dir opfp) = some (.xml f) →
      findMetadata f.doc = some md → md.title = some (some t) →
      titleText fs1 (joinH dir opfp) =
        some (if ts ≠ [] ∧ t ≠ [] ∧ strIn ts t = false
              then t ++ ' ' :: ts else t)) := by
  obtain ⟨f0, hf0, hcase⟩ := update_ok_inv h1
  obtain ⟨f1, hf1, hcase2⟩ := update_ok_inv h2
  rcases hcase with ⟨hmd0, hfs1⟩ | ⟨md, hmd0, hfs1⟩
  · -- no metadata element: both runs re-serialize the same tree
    have hget1 : getFile fs1 (joinH dir opfp) = some (.xml ⟨f0.doc, 0⟩) := by
      rw [hfs1, getFile_setFile, if_pos rfl]
    have hf1e : f1 = ⟨f0.doc, 0⟩ :=
      FData.xml.inj (Option.some.inj (hf1.symm.trans hget1))
    have hmd1 : findMetadata f1.doc = none := by
      rw [hf1e]
      exact hmd0
    rcases hcase2 with ⟨_, hfs2⟩ | ⟨md', hmd1', _⟩
    · constructor
      · rw [hfs2, hfs1]
        unfold titleText
        rw [getFile_setFile, if_pos rfl, getFile_setFile, if_pos rfl, hf1e]
      · intro f md t hf hmd hmt
        have hfe : f = f0 := FData.xml.inj (Option.some.inj (hf.symm.trans hf0))
        rw [hfe, hmd0] at hmd
        cases hmd
    · rw [hmd1] at hmd1'
      cases hmd1'
  · -- metadata element present: the second edit is the identity
    have hget1 : getFile fs1 (joinH dir opfp) =
        some (.xml ⟨setMetadata f0.doc (editMD lc ts md), 0⟩) := by
      rw [hfs1, getFile_setFile, if_pos rfl]
    have hf1e : f1 = ⟨setMetadata f0.doc (editMD lc ts md), 0⟩ :=
      FData.xml.inj (Option.some.inj (hf1.symm.trans hget1))
    have hmd1 : findMetadata f1.doc = some (editMD lc ts md) := by
      rw [hf1e]
      exact findMetadata_setMetadata _ hmd0
    rcases hcase2 with ⟨hmd1', _⟩ | ⟨md', hmd1', hfs2⟩
    · rw [hmd1] at hmd1'
      cases hmd1'
    · have hmd'e : md' = editMD lc ts md :=
        Option.some.inj (hmd1'.symm.trans hmd1)
      have hdoc2 : setMetadata f1.doc (editMD lc ts md') =
          setMetadata f0.doc (editMD lc ts md) := by
        rw [hmd'e, editMD_idem, hf1e]
        exact setMetadata_setMetadata _ _ _
      constructor
      · rw [hfs2, hfs1]
        unfold titleText
        rw [getFile_setFile, if_pos rfl, getFile_setFile, if_pos rfl, hdoc2]
      · intro f md2 t hf hmd hmt
        have hfe : f = f0 := FData.xml.inj (Option.some.inj (hf.symm.trans hf0))
        rw [hfe, hmd0] at hmd
        have hmd2e : md2 = md := Option.some.inj hmd.symm
        rw [hmd2e] at hmt
        unfold titleText
        rw [hget1]
        show docTitleText (setMetadata f0.doc (editMD lc ts md)) = _
        rw [docTitleText_setMetadata _ hmd0, editMD_title, hmt]
        by_cases hts : ts = []
        · simp [editTitle, hts]
        · by_cases ht : t = []
          · simp [editTitle, hts, ht]
          · by_cases hin : strIn ts t
            · simp [editTitle, hts, ht, hin]
            · simp [editTitle, hts, ht, hin]

/-- C4 witness filesystem: a package document with a title and no
language element. -/
def wFS4 : FS :=
  [([chars "d.opf"],
    .xml ⟨.package ⟨some ⟨none, some (some (chars "My Book"))⟩, none⟩, 0⟩)]

/-- Result of one metadata update on `wFS4`. -/
def wFS4a : FS :=
  (update_metadata wFS4 [] (chars "d.opf") (chars "zh")
    (chars "(ZH)")).toOption.getD []

/-- Result of a second identical metadata update. -/
def wFS4b : FS :=
  (update_metadata wFS4a [] (chars "d.opf") (chars "zh")
    (chars "(ZH)")).toOption.getD []

/-- C4 witness: the second identical update leaves the title text of
`wFS4`'s package document unchanged. -/
theorem C4_witness :
    titleText wFS4b (joinH [] (chars "d.opf")) =
      titleText wFS4a (joinH [] (chars "d.opf")) :=
  (C4_title_idempotent wFS4 [] (chars "d.opf") (chars "zh") (chars "(ZH)")
    wFS4a wFS4b rfl rfl).1

/-- The per-item selection of the manifest readers: the media type is one
of the two recognised values, and the `href` resolved against the package
document's directory exists on disk. -/
def keepItem (fs : FS) (opf_dir : Path) (it : ManifestItem) : Bool :=
  (decide (it.mediaType.getD [] = chars "application/xhtml+xml") ||
    decide (it.mediaType.getD [] = chars "text/html")) &&
  (getFile fs (joinH opf_dir (it.href.getD []))).isSome

/-- The content entry built from a kept manifest item. -/
def mkEntry (opf_dir : Path) (it : ManifestItem) : ContentEntry :=
  { id := it.id.getD [], href := it.href.getD [],
    path := joinH opf_dir (it.href.getD []),
    media_type := it.mediaType.getD [] }

/-- `list_content_files` in filter-then-map normal form: one candidate per
manifest item in document order, kept exactly by `keepItem`. -/
theorem list_content_files_eq (A : Archive) (temp : Path)
    (inf : ExtractInfo) (fs : FS) (f : XFile) (items : List ManifestItem)
    (hx : extract_epub A [] temp = .ok (inf, fs))
    (hf : getFile fs inf.opf_full_path = some (.xml f))
    (hm : findManifest f.doc = some items) :
    list_content_files A temp =
      .ok ((items.filter (keepItem fs inf.opf_full_path.dropLast)).map
        (mkEntry inf.opf_full_path.dropLast)) := by
  simp only [list_content_files, hx, hf, hm]
  congr 1
  apply filterMap_eq_filter_map
  intro it
  simp only [keepItem, mkEntry]
  by_cases h1 : it.mediaType.getD [] = chars "application/xhtml+xml" ∨
      it.mediaType.getD [] = chars "text/html"
  · cases hg : getFile fs (joinH inf.opf_full_path.dropLast (it.href.getD []))
      with
    | some d => rcases h1 with h | h <;> simp [h, hg]
    | none => rcases h1 with h | h <;> simp [h, hg]
  · rw [not_or] at h1
    simp [h1.1, h1.2]

/-- C5: the Manifest Reader keeps, in document order, exactly the manifest
items with a recognised media type whose resolved href exists on disk at
read time; a document with no manifest element yields the empty list, not
an error; and every returned entry has a recognised media type and an
existing resolved file. -/
theorem C5_manifest_reader (A : Archive) (temp : Path)
    (inf : ExtractInfo) (fs : FS) (f : XFile)
    (hx : extract_epub A [] temp = .ok (inf, fs))
    (hf : getFile fs inf.opf_full_path = some (.xml f)) :
    (∀ items, findManifest f.doc = some items →
      list_content_files A temp =
        .ok ((items.filter (keepItem fs inf.opf_full_path.dropLast)).map
          (mkEntry inf.opf_full_path.dropLast))) ∧
    (findManifest f.doc = none → list_content_files A temp = .ok []) ∧
    (∀ es, list_content_files A temp = .ok es → ∀ e ∈ es,
      (e.media_type = chars "application/xhtml+xml" ∨
        e.media_type = chars "text/html") ∧
      (getFile fs e.path).isSome = true) := by
  refine ⟨fun items hm => list_content_files_eq A temp inf fs f items hx hf hm,
    ?_, ?_⟩
  · intro hm
    simp [list_content_files, hx, hf, hm]
  · intro es hes e he
    cases hmf : findManifest f.doc with
    | none =>
        have h0 : list_content_files A temp = .ok ([] : List ContentEntry) := by
          simp [list_content_files, hx, hf, hmf]
        rw [h0] at hes
        have he0 : ([] : List ContentEntry) = es := Except.ok.inj hes
        rw [← he0] at he
        simp at he
    | some items =>
        rw [list_content_files_eq A temp inf fs f items hx hf hmf] at hes
        have hese := Except.ok.inj hes
        rw [← hese] at he
        obtain ⟨it, hit, he'⟩ := List.mem_map.mp he
        have h1 := List.mem_filter.mp hit
        have hk := h1.2
        unfold keepItem at hk
        obtain ⟨hk1, hk2⟩ := Bool.and_eq_true .. |>.mp hk
        constructor
        · rw [← he']
          rcases Bool.or_eq_true .. |>.mp hk1 with h | h
          · exact Or.inl (of_decide_eq_true h)
          · exact Or.inr (of_decide_eq_true h)
        · rw [← he']
          exact hk2

/-- C5 witness archive: container pointing at `OEBPS/content.opf`, whose
manifest holds an XHTML chapter (existing on disk) and a JPEG cover. -/
def wA5 : Archive :=
  [⟨[chars "META-INF", chars "container.xml"],
     .xml ⟨.container ⟨some (some (chars "OEBPS/content.opf"))⟩, 0⟩,
     .deflated⟩,
   ⟨[chars "OEBPS", chars "content.opf"],
     .xml ⟨.package ⟨none, some
       [⟨some (chars "ch1"), some (chars "chapter1.xhtml"),
         some (chars "application/xhtml+xml")⟩,
        ⟨some (chars "cover"), some (chars "cover.jpg"),
         some (chars "image/jpeg")⟩]⟩, 0⟩,
     .deflated⟩,
   ⟨[chars "OEBPS", chars "chapter1.xhtml"], .bytes [5], .deflated⟩]

/-- The extraction record of `wA5` into `t`. -/
def wInf5 : ExtractInfo :=
  { extract_dir := [chars "t"], opf_path := chars "OEBPS/content.opf",
    opf_full_path := joinH [chars "t"] (chars "OEBPS/content.opf") }

/-- The filesystem `wA5` expands to under `t`. -/
def wFS5 : FS := writeAll [] [chars "t"] wA5

/-- C5 witness: listing the contents of `wA5` yields exactly the kept
items of its manifest, mapped to entries. -/
theorem C5_witness :
    list_content_files wA5 [chars "t"] =
      .ok ((([⟨some (chars "ch1"), some (chars "chapter1.xhtml"),
          some (chars "application/xhtml+xml")⟩,
         ⟨some (chars "cover"), some (chars "cover.jpg"),
          some (chars "image/jpeg")⟩] : List ManifestItem).filter
            (keepItem wFS5 wInf5.opf_full_path.dropLast)).map
          (mkEntry wInf5.opf_full_path.dropLast)) :=
  (C5_manifest_reader wA5 [chars "t"] wInf5 wFS5
    ⟨.package ⟨none, some
      [⟨some (chars "ch1"), some (chars "chapter1.xhtml"),
        some (chars "application/xhtml+xml")⟩,
       ⟨some (chars "cover"), some (chars "cover.jpg"),
        some (chars "image/jpeg")⟩]⟩, 0⟩
    rfl (by decide)).1 _ rfl

/-- Pairing of a zip entry's name with its contents: the data the
round-trip property compares ("entry set: names and byte contents"). -/
def keyOf (e : ZEntry) : Path × FData := (e.name, e.data)

/-- C1 counterexample archive: a valid archive (container descriptor with
a rootfile reference) that also carries a nested `OEBPS/mimetype` entry. -/
def cA1 : Archive :=
  [⟨[chars "mimetype"], .bytes [0], .stored⟩,
   ⟨[chars "META-INF", chars "container.xml"],
     .xml ⟨.container ⟨some (some (chars "c.opf"))⟩, 0⟩, .deflated⟩,
   ⟨[chars "c.opf"], .xml ⟨.package ⟨none, some []⟩, 0⟩, .deflated⟩,
   ⟨[chars "OEBPS", chars "mimetype"], .bytes [1], .deflated⟩]

/-- The filesystem `cA1` extracts to under `w1`. -/
def cFS1 : FS := writeAll [] [chars "w1"] cA1

/-- C1 counterexample: extracting `cA1` succeeds, its entry set contains
the nested `OEBPS/mimetype` file, but the archive packed from the
extracted directory does not: the walk of `pack_epub` skips every file
whose bare name is `mimetype`, so `pack(extract(A))` loses the entry and
the two entry sets differ. -/
theorem C1_counterexample :
    exOk (extract_epub cA1 [] [chars "w1"]) = true ∧
    ([chars "OEBPS", chars "mimetype"], FData.bytes [1]) ∈ cA1.map keyOf ∧
    ([chars "OEBPS", chars "mimetype"], FData.bytes [1]) ∉
      (packBody cFS1 [chars "w1"]).map keyOf :=
  ⟨rfl, by decide, by decide⟩

/-- C1 amended: for a valid archive with pairwise distinct, non-empty
entry names in which no entry except a top-level `mimetype` has bare name
`mimetype`, extracted into a location the filesystem is clean for, packing
the extracted directory yields an archive with the same entry set (names
and contents), and when the original archive followed the
first-entry-`mimetype`-stored convention, so does the repacked one. -/
theorem C1_roundtrip (A : Archive) (fs0 : FS) (out : Path)
    (inf : ExtractInfo) (fs1 : FS) (es : Archive)
    (hclean : cleanFor fs0 out = true)
    (hnd : (A.map ZEntry.name).Nodup)
    (hne : ∀ e ∈ A, e.name ≠ [])
    (hmime : ∀ e ∈ A, lastName e.name = chars "mimetype" →
        e.name = [chars "mimetype"])
    (hx : extract_epub A fs0 out = .ok (inf, fs1))
    (hp : pack_epub true fs1 out = .ok es) :
    (∀ nd, nd ∈ es.map keyOf ↔ nd ∈ A.map keyOf) ∧
    (∀ e0, A.head? = some e0 → e0.name = [chars "mimetype"] →
      e0.method = .stored →
      es.head? = some ⟨[chars "mimetype"], e0.data, .stored⟩) := by
  have hes : es = packBody fs1 out := by
    simpa [pack_epub] using hp.symm
  have hfs1 : fs1 = writeAll fs0 out A := (extract_ok_inv hx).1
  subst hes
  subst hfs1
  have hW : writeAll fs0 out A =
      fs0 ++ A.map (fun e => (out ++ e.name, e.data)) :=
    writeAll_eq_append A fs0 out (fun e _ => cleanFor_getFile hclean _) hnd
  have hmget : getFile (writeAll fs0 out A) (out ++ [chars "mimetype"]) =
      archLookup A [chars "mimetype"] := by
    rw [getFile_writeAll]
    cases h : archLookup A [chars "mimetype"] with
    | some d => simp
    | none => exact cleanFor_getFile hclean [chars "mimetype"]
  have hwalk : walkFiles (writeAll fs0 out A) out =
      A.map (fun e => (out ++ e.name, e.data)) := by
    rw [hW]
    unfold walkFiles
    rw [List.filter_append]
    have h1 : List.filter (fun pr => underDir out pr.1) fs0 = [] :=
      walkFiles_eq_nil hclean
    have h2 : List.filter (fun pr => underDir out pr.1)
        (A.map (fun e => (out ++ e.name, e.data))) =
        A.map (fun e => (out ++ e.name, e.data)) := by
      rw [List.filter_eq_self]
      intro pr hpr
      obtain ⟨e, he, hpe⟩ := List.mem_map.mp hpr
      rw [← hpe]
      exact underDir_append out (hne e he)
    rw [h1, h2, List.nil_append]
  constructor
  · intro nd
    constructor
    · intro hin
      obtain ⟨e, he, hk⟩ := List.mem_map.mp hin
      rcases mem_packBody he with ⟨d, hg, he1, _⟩ | ⟨p, d, hm, hu, hln, he1⟩
      · rw [hmget] at hg
        obtain ⟨e', he', hn', hd'⟩ := archLookup_mem hg
        refine List.mem_map.mpr ⟨e', he', ?_⟩
        rw [← hk, he1]
        unfold keyOf
        rw [hn', hd']
      · rw [hW] at hm
        rcases List.mem_append.mp hm with hm0 | hmA
        · have hall := (List.all_eq_true.mp hclean) _ hm0
          simp only [Bool.not_eq_true'] at hall
          rw [hasLead_of_underDir hu] at hall
          exact absurd hall (by simp)
        · obtain ⟨e', he', hpe⟩ := List.mem_map.mp hmA
          refine List.mem_map.mpr ⟨e', he', ?_⟩
          rw [← hk, he1]
          unfold keyOf
          have hp1 : p = out ++ e'.name := (congrArg Prod.fst hpe).symm
          have hd1 : d = e'.data := (congrArg Prod.snd hpe).symm
          rw [hp1, hd1, relIn_append]
    · intro hin
      obtain ⟨e', he', hk⟩ := List.mem_map.mp hin
      by_cases hm : e'.name = [chars "mimetype"]
      · have hal : archLookup A [chars "mimetype"] = some e'.data := by
          rw [← hm]
          exact archLookup_of_mem_nodup he' hnd
        refine List.mem_map.mpr
          ⟨⟨[chars "mimetype"], e'.data, .stored⟩, ?_, ?_⟩
        · unfold packBody
          rw [hmget, hal]
          exact List.mem_append.mpr (Or.inl (List.mem_singleton.mpr rfl))
        · rw [← hk]
          unfold keyOf
          rw [hm]
      · have hlne : lastName e'.name ≠ chars "mimetype" :=
          fun hl => hm (hmime e' he' hl)
        have hprmem : (out ++ e'.name, e'.data) ∈
            walkFiles (writeAll fs0 out A) out := by
          rw [hwalk]
          exact List.mem_map.mpr ⟨e', he', rfl⟩
        have hfil : (out ++ e'.name, e'.data) ∈
            (walkFiles (writeAll fs0 out A) out).filter
              (fun pr => decide (lastName pr.1 ≠ chars "mimetype")) := by
          rw [List.mem_filter]
          refine ⟨hprmem, ?_⟩
          apply decide_eq_true
          show lastName (out ++ e'.name) ≠ chars "mimetype"
          rw [lastName_append out (hne e' he')]
          exact hlne
        refine List.mem_map.mpr
          ⟨⟨relIn out (out ++ e'.name), e'.data, .deflated⟩, ?_, ?_⟩
        · unfold packBody
          refine List.mem_append.mpr (Or.inr ?_)
          exact List.mem_map.mpr ⟨(out ++ e'.name, e'.data), hfil, rfl⟩
        · rw [← hk]
          unfold keyOf
          rw [relIn_append]
  · intro e0 h0 hn0 _
    have he0 : e0 ∈ A := by
      cases A with
      | nil => cases h0
      | cons a A' =>
          have ha : a = e0 := Option.some.inj h0
          rw [← ha]
          exact List.mem_cons_self _ _
    have hal : archLookup A [chars "mimetype"] = some e0.data := by
      rw [← hn0]
      exact archLookup_of_mem_nodup he0 hnd
    unfold packBody
    rw [hmget, hal]
    rfl

/-- The extraction record of `wA5` into `v`. -/
def wInf1 : ExtractInfo :=
  { extract_dir := [chars "v"], opf_path := chars "OEBPS/content.opf",
    opf_full_path := joinH [chars "v"] (chars "OEBPS/content.opf") }

/-- The filesystem `wA5` expands to under `v`. -/
def wFS1 : FS := writeAll [] [chars "v"] wA5

/-- C1 witness: the chapter entry of `wA5` survives the round trip into
the repacked entry set. -/
theorem C1_witness :
    ([chars "OEBPS", chars "chapter1.xhtml"], FData.bytes [5]) ∈
      (packBody wFS1 [chars "v"]).map keyOf :=
  ((C1_roundtrip wA5 [] [chars "v"] wInf1 wFS1 _ (by decide) (by decide)
    (by decide) (by decide) rfl rfl).1 _).mpr (by decide)

/-- `get_content_files` in filter-then-map normal form, mirroring
`list_content_files_eq`. -/
theorem get_content_files_eq (fs : FS) (dir : Path) (opfp : Str) (f : XFile)
    (items : List ManifestItem)
    (hf : getFile fs (joinH dir opfp) = some (.xml f))
    (hm : findManifest f.doc = some items) :
    get_content_files fs dir opfp =
      .ok ((items.filter (keepItem fs (joinH dir opfp).dropLast)).map
        (fun it => joinH (joinH dir opfp).dropLast (it.href.getD []))) := by
  simp only [get_content_files, hf, hm]
  congr 1
  apply filterMap_eq_filter_map
  intro it
  simp only [keepItem]
  by_cases h1 : it.mediaType.getD [] = chars "application/xhtml+xml" ∨
      it.mediaType.getD [] = chars "text/html"
  · by_cases hg : (getFile fs
        (joinH (joinH dir opfp).dropLast (it.href.getD []))).isSome = true
    · obtain ⟨dd, hdd⟩ := Option.isSome_iff_exists.mp hg
      rcases h1 with h | h <;> simp [h, hdd]
    · have hdd : getFile fs
          (joinH (joinH dir opfp).dropLast (it.href.getD [])) = none :=
        Option.not_isSome_iff_eq_none.mp (by simpa using hg)
      rcases h1 with h | h <;> simp [h, hdd]
  · rw [not_or] at h1
    simp [h1.1, h1.2]

/-- C9 counterexample extraction record: `wA5` extracted into `work`. -/
def cInf9 : ExtractInfo :=
  { extract_dir := [chars "work"], opf_path := chars "OEBPS/content.opf",
    opf_full_path := joinH [chars "work"] (chars "OEBPS/content.opf") }

/-- The filesystem `wA5` expands to under `work`. -/
def cFS9 : FS := writeAll [] [chars "work"] wA5

/-- The entries `list_content_files` returns for `wA5` (its temporary
directory being `tmp`). -/
def cEs9 : List ContentEntry :=
  (list_content_files wA5 [chars "tmp"]).toOption.getD []

/-- The paths `get_content_files` returns on the `work` extraction. -/
def cPs9 : List Path :=
  (get_content_files cFS9 [chars "work"] cInf9.opf_path).toOption.getD []

/-- C9 counterexample: extracting `wA5` into `work` succeeds, both readers
succeed, but the `path` fields of `list_content_files` (which live under
its temporary directory) differ from the paths `get_content_files` returns
(which live under the extraction directory). -/
theorem C9_counterexample :
    extract_epub wA5 [] [chars "work"] = .ok (cInf9, cFS9) ∧
    list_content_files wA5 [chars "tmp"] = .ok cEs9 ∧
    get_content_files cFS9 [chars "work"] cInf9.opf_path = .ok cPs9 ∧
    cEs9.map ContentEntry.path ≠ cPs9 :=
  ⟨rfl, rfl, rfl, by decide⟩

/-- C9 amended: the two manifest readers agree up to the extraction-
directory prefix: relative to its temporary directory, the `path` fields
of `list_content_files` equal the `get_content_files` paths relative to
the extraction directory (for archives whose entry names are non-empty
and whose package-document path and manifest hrefs are not absolute). -/
theorem C9_readers_agree (A : Archive) (temp d : Path) (fs0 : FS)
    (i1 i2 : ExtractInfo) (fsT fs1 : FS)
    (es : List ContentEntry) (ps : List Path)
    (ht : extract_epub A [] temp = .ok (i1, fsT))
    (hd : extract_epub A fs0 d = .ok (i2, fs1))
    (hclean : cleanFor fs0 d = true)
    (hne : ∀ e ∈ A, e.name ≠ [])
    (hfp : i1.opf_path.head? ≠ some '/')
    (hhr : ∀ f its, archLookup A (splitSlash i1.opf_path) = some (.xml f) →
        findManifest f.doc = some its →
        ∀ it ∈ its, (it.href.getD []).head? ≠ some '/')
    (hl : list_content_files A temp = .ok es)
    (hg : get_content_files fs1 d i2.opf_path = .ok ps) :
    es.map (fun e => relIn temp e.path) = ps.map (relIn d) := by
  obtain ⟨hfsT, -, hfull1, fC, hcT, hrT⟩ := extract_ok_inv ht
  obtain ⟨hfs1, -, -, fC', hc1, hr1⟩ := extract_ok_inv hd
  subst hfsT
  subst hfs1
  have hT : ∀ q, getFile (writeAll [] temp A) (temp ++ q) = archLookup A q := by
    intro q
    rw [getFile_writeAll]
    cases h : archLookup A q with
    | some dd => simp
    | none => rfl
  have hD : ∀ q, getFile (writeAll fs0 d A) (d ++ q) = archLookup A q := by
    intro q
    rw [getFile_writeAll]
    cases h : archLookup A q with
    | some dd => simp
    | none => exact cleanFor_getFile hclean q
  have hcc : archLookup A [chars "META-INF", chars "container.xml"] =
      some (.xml fC) := by
    rw [← hT]
    exact hcT
  have hcc' : archLookup A [chars "META-INF", chars "container.xml"] =
      some (.xml fC') := by
    rw [← hD]
    exact hc1
  have hfCe : fC = fC' := FData.xml.inj (Option.some.inj (hcc.symm.trans hcc'))
  have hopf : i2.opf_path = i1.opf_path := by
    rw [← hfCe] at hr1
    exact Option.some.inj (Option.some.inj (hr1.symm.trans hrT))
  have hsp : joinH temp i1.opf_path = temp ++ splitSlash i1.opf_path :=
    joinH_rel temp hfp
  have hsp' : joinH d i2.opf_path = d ++ splitSlash i1.opf_path := by
    rw [hopf]
    exact joinH_rel d hfp
  cases hA : archLookup A (splitSlash i1.opf_path) with
  | none =>
      simp only [list_content_files, ht] at hl
      rw [hfull1, hsp, hT, hA] at hl
      simp at hl
  | some fd =>
      have hfT : getFile (writeAll [] temp A) i1.opf_full_path = some fd := by
        rw [hfull1, hsp, hT]
        exact hA
      have hfD : getFile (writeAll fs0 d A) (joinH d i2.opf_path) = some fd := by
        rw [hsp', hD]
        exact hA
      cases fd with
      | bytes bs =>
          simp only [list_content_files, ht] at hl
          rw [hfT] at hl
          simp at hl
      | xml g =>
          have hspne : splitSlash i1.opf_path ≠ [] := by
            intro h0
            rw [h0, archLookup_nil hne] at hA
            cases hA
          have hdT : i1.opf_full_path.dropLast =
              temp ++ (splitSlash i1.opf_path).dropLast := by
            rw [hfull1, hsp]
            exact dropLast_append temp hspne
          have hdD : (joinH d i2.opf_path).dropLast =
              d ++ (splitSlash i1.opf_path).dropLast := by
            rw [hsp']
            exact dropLast_append d hspne
          cases hm : findManifest g.doc with
          | none =>
              have hl0 : list_content_files A temp = .ok [] := by
                simp [list_content_files, ht, hfT, hm]
              have hg0 : get_content_files (writeAll fs0 d A) d i2.opf_path =
                  .ok [] := by
                simp [get_content_files, hfD, hm]
              have hes : ([] : List ContentEntry) = es :=
                Except.ok.inj (hl0.symm.trans hl)
              have hps : ([] : List Path) = ps :=
                Except.ok.inj (hg0.symm.trans hg)
              rw [← hes, ← hps]
              rfl
          | some items =>
              have hesq := list_content_files_eq A temp i1
                (writeAll [] temp A) g items ht hfT hm
              have hpsq := get_content_files_eq (writeAll fs0 d A) d
                i2.opf_path g items hfD hm
              have hes := Except.ok.inj (hesq.symm.trans hl)
              have hps := Except.ok.inj (hpsq.symm.trans hg)
              rw [← hes, ← hps]
              have hAll : ∀ it ∈ items, (it.href.getD []).head? ≠ some '/' :=
                hhr g items hA hm
              have hlook : ∀ it ∈ items,
                  getFile (writeAll [] temp A)
                    (joinH (i1.opf_full_path.dropLast) (it.href.getD [])) =
                  getFile (writeAll fs0 d A)
                    (joinH ((joinH d i2.opf_path).dropLast)
                      (it.href.getD [])) := by
                intro it hit
                rw [hdT, hdD, joinH_rel _ (hAll it hit),
                  joinH_rel _ (hAll it hit), List.append_assoc,
                  List.append_assoc, hT, hD]
              have hfil : items.filter
                  (keepItem (writeAll [] temp A) i1.opf_full_path.dropLast) =
                  items.filter (keepItem (writeAll fs0 d A)
                    ((joinH d i2.opf_path).dropLast)) := by
                apply List.filter_congr
                intro it hit
                unfold keepItem
                rw [hlook it hit]
              rw [hfil, List.map_map, List.map_map]
              apply List.map_congr_left
              intro it hit
              have hit2 : it ∈ items := (List.mem_filter.mp hit).1
              show relIn temp (mkEntry i1.opf_full_path.dropLast it).path =
                relIn d (joinH ((joinH d i2.opf_path).dropLast)
                  (it.href.getD []))
              show relIn temp
                  (joinH i1.opf_full_path.dropLast (it.href.getD [])) = _
              rw [hdT, hdD, joinH_rel _ (hAll it hit2),
                joinH_rel _ (hAll it hit2), List.append_assoc,
                List.append_assoc, relIn_append, relIn_append]

/-- C9 witness extraction record: `wA5` extracted into `tmp`. -/
def wInf9t : ExtractInfo :=
  { extract_dir := [chars "tmp"], opf_path := chars "OEBPS/content.opf",
    opf_full_path := joinH [chars "tmp"] (chars "OEBPS/content.opf") }

/-- The filesystem `wA5` expands to under `tmp`. -/
def cFST9 : FS := writeAll [] [chars "tmp"] wA5

/-- C9 witness: on `wA5` the two readers' outputs coincide once each is
taken relative to its own extraction directory. -/
theorem C9_witness :
    cEs9.map (fun e => relIn [chars "tmp"] e.path) =
      cPs9.map (relIn [chars "work"]) :=
  C9_readers_agree wA5 [chars "tmp"] [chars "work"] [] wInf9t cInf9
    cFST9 cFS9 cEs9 cPs9 rfl rfl (by decide) (by decide) (by decide)
    (by
      intro f its hA hm
      have hG : archLookup wA5 (splitSlash wInf9t.opf_path) =
          some (.xml ⟨.package ⟨none, some
            [⟨some (chars "ch1"), some (chars "chapter1.xhtml"),
              some (chars "application/xhtml+xml")⟩,
             ⟨some (chars "cover"), some (chars "cover.jpg"),
              some (chars "image/jpeg")⟩]⟩, 0⟩) := by decide
      have hfe : f = ⟨.package ⟨none, some
          [⟨some (chars "ch1"), some (chars "chapter1.xhtml"),
            some (chars "application/xhtml+xml")⟩,
           ⟨some (chars "cover"), some (chars "cover.jpg"),
            some (chars "image/jpeg")⟩]⟩, 0⟩ :=
        FData.xml.inj (Option.some.inj (hA.symm.trans hG))
      subst hfe
      have hm' : some
          [(⟨some (chars "ch1"), some (chars "chapter1.xhtml"),
            some (chars "application/xhtml+xml")⟩ : ManifestItem),
           ⟨some (chars "cover"), some (chars "cover.jpg"),
            some (chars "image/jpeg")⟩] = some its := hm
      have hits :
          [(⟨some (chars "ch1"), some (chars "chapter1.xhtml"),
            some (chars "application/xhtml+xml")⟩ : ManifestItem),
           ⟨some (chars "cover"), some (chars "cover.jpg"),
            some (chars "image/jpeg")⟩] = its := Option.some.inj hm'
      subst hits
      decide)
    rfl rfl

end EpubUtils
